import Mathlib

/-
Verification development for the core pipeline of the gallery commission
report generator (src/app.py): the category parser (`parse_category`), the
dollar and quantity text normalizers (`parse_dollar`, the `Qty` coercion in
`process_csv`), the aggregation stage (`process_csv`), and the derived
metrics of `ArtistReport`.

Modelling conventions:
* Python strings are modelled as `List Char`.  `str.strip`, `str.lower`,
  the regex classes `\d` / `\s` and the digit handling of `int`/`float`
  are modelled on the ASCII range (the only range the program's data and
  the properties below exercise).
* Python float VALUES are modelled exactly.  Every numeric value that can
  flow through this pipeline is a decimal fraction (a mantissa over a
  power of ten) or one of the IEEE specials `inf`, `-inf`, `nan`, which
  `float("inf")` and friends produce.  A decimal fraction is represented
  by the structure `Dec` below; arithmetic on `Dec` is exact, i.e. the
  binary-rounding artefacts of IEEE doubles are idealised away, while the
  specials and their propagation rules (`inf - inf = nan`, `inf * 0 = nan`,
  comparisons with `nan` are false, ...) are kept.
* `round(x, 2)` is modelled as rounding the exact decimal value half to
  even at two decimal places (CPython rounds the double half to even).
* Fallible Python code is modelled with `Except Unit`: `.error ()` marks
  an exception that `process_csv` does not catch.
-/

abbrev Str := List Char

/-- Coercion from Lean string literals to the `List Char` model. -/
def strL (s : String) : Str := s.toList

/-- The whitespace class of Python's `str.strip` / regex `\s` (ASCII part). -/
def pyIsSpace (c : Char) : Bool :=
  c == ' ' || c == '\t' || c == '\n' || c == '\r' || c == '\x0b' || c == '\x0c'

/-- Python `str.strip()`: remove leading and trailing whitespace. -/
def pyStrip (s : Str) : Str :=
  ((s.dropWhile pyIsSpace).reverse.dropWhile pyIsSpace).reverse

/-- Python `str.lower()` (ASCII part, via `Char.toLower`). -/
def pyLower (s : Str) : Str := s.map Char.toLower

/-- Value of a string of decimal digits, as Python `int` reads it. -/
def digitsToNat (s : Str) : Nat :=
  s.foldl (fun n c => 10 * n + (c.toNat - '0'.toNat)) 0

/-- Lexicographic comparison of strings by code point, Python's `<=` on
`str`, used by `list.sort(key=...)` on the `date` field. -/
def lexLe : Str → Str → Bool
  | [], _ => true
  | _ :: _, [] => false
  | a :: s, b :: t => if a < b then true else if b < a then false else lexLe s t

/-- An exact decimal fraction `m / 10 ^ k`.  All finite float values
produced by this pipeline (parsed dollar amounts, commission rates,
rounded totals) are of this shape. -/
structure Dec where
  m : Int
  k : Nat
deriving DecidableEq

namespace Dec

/-- The rational value of a decimal fraction (for specification only). -/
def val (d : Dec) : ℚ := (d.m : ℚ) / 10 ^ d.k

/-- Exact addition: align the scales. -/
def add (a b : Dec) : Dec :=
  ⟨a.m * 10 ^ (max a.k b.k - a.k) + b.m * 10 ^ (max a.k b.k - b.k), max a.k b.k⟩

def neg (a : Dec) : Dec := ⟨-a.m, a.k⟩

def sub (a b : Dec) : Dec := add a (neg b)

/-- Exact multiplication. -/
def mul (a b : Dec) : Dec := ⟨a.m * b.m, a.k + b.k⟩

def dabs (a : Dec) : Dec := ⟨|a.m|, a.k⟩

/-- Value comparison by cross multiplication. -/
def le (a b : Dec) : Bool := decide (a.m * 10 ^ b.k ≤ b.m * 10 ^ a.k)

/-- `0 < value`. -/
def pos (a : Dec) : Bool := decide (0 < a.m)

/-- `value = 0`. -/
def isZero (a : Dec) : Bool := decide (a.m = 0)

end Dec

/-- Round `p / q` (with `q` positive) to the nearest integer, ties to
even — the rounding of CPython's `round`. -/
def rheDiv (p q : Int) : Int :=
  let f := p.fdiv q
  let r := p - f * q
  if 2 * r < q then f
  else if q < 2 * r then f + 1
  else if f % 2 = 0 then f else f + 1

namespace Dec

/-- Python `round(x, 2)` on the exact decimal value: round half to even
at two decimal places.  The result always has scale 2. -/
def round2 (d : Dec) : Dec :=
  if d.k ≤ 2 then ⟨d.m * 10 ^ (2 - d.k), 2⟩
  else ⟨rheDiv d.m (10 ^ (d.k - 2)), 2⟩

/-- Python `int(x)` on a finite float: truncation toward zero. -/
def trunc (d : Dec) : Int :=
  if 0 ≤ d.m then ((d.m.toNat / 10 ^ d.k : Nat) : Int)
  else -((((-d.m).toNat / 10 ^ d.k : Nat)) : Int)

end Dec

/-- A Python float value: a finite exact decimal, or one of the IEEE
specials that `float("inf")`, `float("-inf")`, `float("nan")` produce. -/
inductive PyFloat where
  | finite (d : Dec)
  | inf
  | ninf
  | nan
deriving DecidableEq

namespace PyFloat

def isFinite : PyFloat → Bool
  | finite _ => true
  | _ => false

def neg : PyFloat → PyFloat
  | finite d => finite (Dec.neg d)
  | inf => ninf
  | ninf => inf
  | nan => nan

/-- IEEE addition on the model: `nan` is absorbing, `inf + -inf = nan`. -/
def add : PyFloat → PyFloat → PyFloat
  | nan, _ => nan
  | _, nan => nan
  | inf, ninf => nan
  | ninf, inf => nan
  | inf, _ => inf
  | _, inf => inf
  | ninf, _ => ninf
  | _, ninf => ninf
  | finite a, finite b => finite (Dec.add a b)

def sub (a b : PyFloat) : PyFloat := add a (neg b)

/-- IEEE multiplication on the model: `nan` is absorbing, `inf * 0 = nan`,
otherwise infinities follow the sign of the finite factor. -/
def mul : PyFloat → PyFloat → PyFloat
  | nan, _ => nan
  | _, nan => nan
  | inf, inf => inf
  | inf, ninf => ninf
  | ninf, inf => ninf
  | ninf, ninf => inf
  | inf, finite b => if b.isZero then nan else if b.pos then inf else ninf
  | finite a, inf => if a.isZero then nan else if a.pos then inf else ninf
  | ninf, finite b => if b.isZero then nan else if b.pos then ninf else inf
  | finite a, ninf => if a.isZero then nan else if a.pos then ninf else inf
  | finite a, finite b => finite (Dec.mul a b)

def pabs : PyFloat → PyFloat
  | finite d => finite (Dec.dabs d)
  | nan => nan
  | _ => inf

/-- IEEE `<=`: every comparison with `nan` is false. -/
def le : PyFloat → PyFloat → Bool
  | nan, _ => false
  | _, nan => false
  | ninf, _ => true
  | _, ninf => false
  | _, inf => true
  | inf, _ => false
  | finite a, finite b => Dec.le a b

/-- Python `round(x, 2)`: the specials are fixed points. -/
def round2 : PyFloat → PyFloat
  | finite d => finite (Dec.round2 d)
  | x => x

end PyFloat

/-- Python's `sum` over float values (left fold starting from `0`). -/
def pySum (l : List PyFloat) : PyFloat := l.foldl PyFloat.add (.finite ⟨0, 0⟩)

/-- Read the optional sign of a float literal; `true` means negative. -/
def readSign : Str → Bool × Str
  | '+' :: r => (false, r)
  | '-' :: r => (true, r)
  | r => (false, r)

/-- Apply a decimal exponent to a mantissa, exactly. -/
def applyExp (d : Dec) (eneg : Bool) (e : Nat) : Dec :=
  if eneg then ⟨d.m, d.k + e⟩ else ⟨d.m * 10 ^ e, d.k⟩

/-- Parse the optional exponent part of a float literal; the whole rest of
the string must be consumed. -/
def parseExpPart (mant : Dec) (r : Str) : Option Dec :=
  match r with
  | [] => some mant
  | e :: r1 =>
    if e == 'e' || e == 'E' then
      let eds := (readSign r1).2.takeWhile Char.isDigit
      let r3 := (readSign r1).2.dropWhile Char.isDigit
      if eds = [] ∨ r3 ≠ [] then none
      else some (applyExp mant (readSign r1).1 (digitsToNat eds))
    else none

/-- Parse an unsigned decimal float literal: `digits [. digits] [exponent]`
or `. digits [exponent]`.  (CPython also accepts `_` digit separators and
non-ASCII digits; those are outside the modelled range.) -/
def parseDecimal (u : Str) : Option Dec :=
  let ds1 := u.takeWhile Char.isDigit
  let r1 := u.dropWhile Char.isDigit
  match r1 with
  | '.' :: r2 =>
    let ds2 := r2.takeWhile Char.isDigit
    let r3 := r2.dropWhile Char.isDigit
    if ds1 = [] ∧ ds2 = [] then none
    else parseExpPart ⟨(digitsToNat (ds1 ++ ds2) : Int), ds2.length⟩ r3
  | _ =>
    if ds1 = [] then none
    else parseExpPart ⟨(digitsToNat ds1 : Int), 0⟩ r1

/-- Python `float(s)`: strip whitespace, read an optional sign, then either
one of the special names `inf` / `infinity` / `nan` (case-insensitively) or
a decimal literal.  `none` models a raised `ValueError`. -/
def pyFloatOfStr (s : Str) : Option PyFloat :=
  let t := pyStrip s
  if t = [] then none
  else
    let u := (readSign t).2
    let lu := pyLower u
    if lu = strL "inf" ∨ lu = strL "infinity" then
      some (if (readSign t).1 then .ninf else .inf)
    else if lu = strL "nan" then some .nan
    else
      match parseDecimal u with
      | some d => some (.finite (if (readSign t).1 then Dec.neg d else d))
      | none => none

/-- The residue `value.replace("$", "").replace(",", "").strip()` that
`parse_dollar` feeds to `float`. -/
def dollarResidue (value : Str) : Str :=
  pyStrip (value.filter (fun c => !(c == '$' || c == ',')))

/-- `parse_dollar` from src/app.py: strip `$` and `,`, trim; empty residue
and `ValueError` both yield `0.0`. -/
def parse_dollar (value : Str) : PyFloat :=
  if dollarResidue value = [] then .finite ⟨0, 1⟩
  else
    match pyFloatOfStr (dollarResidue value) with
    | some v => v
    | none => .finite ⟨0, 1⟩

/-- The regex `\((\d+)\)\s*$` applied at the start of `s`: an opening
parenthesis, one or more digits, a closing parenthesis, then only
whitespace to the end.  Returns the digit group. -/
def matchSuffix (s : Str) : Option Str :=
  match s with
  | [] => none
  | c :: rest =>
    if c = '(' then
      if rest.takeWhile Char.isDigit = [] then none
      else
        match rest.dropWhile Char.isDigit with
        | [] => none
        | c2 :: tail =>
          if c2 = ')' ∧ tail.all pyIsSpace then some (rest.takeWhile Char.isDigit)
          else none
    else none

/-- `re.search` with the pattern `\((\d+)\)\s*$`: try every start position
left to right; returns (text before the match, digit group). -/
def searchCommission : Str → Option (Str × Str)
  | [] => none
  | c :: cs =>
    match matchSuffix (c :: cs) with
    | some ds => some ([], ds)
    | none =>
      match searchCommission cs with
      | some (p, ds) => some (c :: p, ds)
      | none => none

/-- The name clean-up of `parse_category`: `.strip()`, then `.lstrip("#")`,
then `.strip()`. -/
def cleanName (t : Str) : Str :=
  pyStrip ((pyStrip t).dropWhile (fun c => c == '#'))

/-- `parse_category` from src/app.py. -/
def parse_category (category : Str) : Str × Dec :=
  if category = [] ∨ pyLower (pyStrip category) = strL "none" then ([], ⟨0, 1⟩)
  else
    match searchCommission category with
    | some (pre, ds) => (cleanName pre, ⟨(digitsToNat ds : Int), 2⟩)
    | none => (cleanName category, ⟨30, 2⟩)

/-- The `Qty` coercion of `process_csv`:
`int(float(row.get("Qty", "0") or "0"))` inside `try: ... except ValueError:
qty = 0`.  `float` raising `ValueError` and `int(nan)` raising `ValueError`
are caught; `int(±inf)` raises `OverflowError`, which the `except ValueError`
clause does NOT catch — modelled as `.error ()`. -/
def qtyCoerce (qty : Option Str) : Except Unit Int :=
  let s0 := qty.getD (strL "0")
  let s1 := if s0 = [] then strL "0" else s0
  match pyFloatOfStr s1 with
  | none => .ok 0
  | some (.finite d) => .ok (Dec.trunc d)
  | some .nan => .ok 0
  | some .inf => .error ()
  | some .ninf => .error ()

deriving instance DecidableEq for Except

/-- `SaleRecord` from src/app.py. -/
structure SaleRecord where
  date : Str
  item : Str
  qty : Int
  net_sales : PyFloat
deriving DecidableEq

/-- `ArtistReport` from src/app.py (the `sales` list; the three metrics are
the derived properties below). -/
structure ArtistReport where
  name : Str
  commission_rate : Dec
  sales : List SaleRecord
deriving DecidableEq

/-- `ArtistReport.total_net_sales`: `round(sum(s.net_sales ...), 2)`. -/
def total_net_sales (rep : ArtistReport) : PyFloat :=
  PyFloat.round2 (pySum (rep.sales.map SaleRecord.net_sales))

/-- `ArtistReport.gallery_commission`: `round(total * rate, 2)`. -/
def gallery_commission (rep : ArtistReport) : PyFloat :=
  PyFloat.round2 (PyFloat.mul (total_net_sales rep) (.finite rep.commission_rate))

/-- `ArtistReport.artist_payout`: `round(total - commission, 2)`. -/
def artist_payout (rep : ArtistReport) : PyFloat :=
  PyFloat.round2 (PyFloat.sub (total_net_sales rep) (gallery_commission rep))

/-- One CSV row as `process_csv` reads it: the five fields it accesses,
each possibly absent (`row.get` with a default). -/
structure Row where
  category : Option Str
  netSales : Option Str
  qty : Option Str
  date : Option Str
  item : Option Str
deriving DecidableEq

/-- The artists dictionary, in insertion order (Python dicts preserve it). -/
abbrev Artists := List (Str × ArtistReport)

def lookupA : Artists → Str → Option ArtistReport
  | [], _ => none
  | (k, v) :: t, a => if k = a then some v else lookupA t a

/-- `artists[name].sales.append(sale)`. -/
def addSale (l : Artists) (name : Str) (sale : SaleRecord) : Artists :=
  l.map (fun e => if e.1 = name then (e.1, { e.2 with sales := e.2.sales ++ [sale] }) else e)

/-- `row.get("Category", "").strip()`. -/
def rowCategory (r : Row) : Str := pyStrip (r.category.getD [])

def rowArtist (r : Row) : Str := (parse_category (rowCategory r)).1

def rowRate (r : Row) : Dec := (parse_category (rowCategory r)).2

/-- The `SaleRecord` built from a row (given the coerced quantity). -/
def rowSale (r : Row) (q : Int) : SaleRecord :=
  ⟨r.date.getD [], r.item.getD [], q, parse_dollar (r.netSales.getD [])⟩

/-- The body of the `for row in rows` loop of `process_csv`. -/
def step (A : Artists) (sk : List Row) (r : Row) : Except Unit (Artists × List Row) :=
  if rowArtist r = [] then .ok (A, sk ++ [r])
  else
    match qtyCoerce r.qty with
    | .error e => .error e
    | .ok q =>
      let A1 := if (lookupA A (rowArtist r)).isSome then A
                else A ++ [(rowArtist r, ⟨rowArtist r, rowRate r, []⟩)]
      .ok (addSale A1 (rowArtist r) (rowSale r q), sk)

/-- The loop of `process_csv`, threading the artists dictionary and the
skipped list. -/
def runRows : List Row → Artists → List Row → Except Unit (Artists × List Row)
  | [], A, sk => .ok (A, sk)
  | r :: rs, A, sk =>
    match step A sk r with
    | .error e => .error e
    | .ok (A1, sk1) => runRows rs A1 sk1

/-- Stable insertion of a sale into a list, before the first record whose
date is not smaller — extensionally Python's stable ascending sort. -/
def insertByDate (s : SaleRecord) : List SaleRecord → List SaleRecord
  | [] => [s]
  | t :: ts => if lexLe s.date t.date then s :: t :: ts else t :: insertByDate s ts

/-- `report.sales.sort(key=lambda s: s.date)`: a stable ascending sort by
the date string. -/
def sortByDate : List SaleRecord → List SaleRecord
  | [] => []
  | s :: ss => insertByDate s (sortByDate ss)

def sortEntry (e : Str × ArtistReport) : Str × ArtistReport :=
  (e.1, { e.2 with sales := sortByDate e.2.sales })

/-- `process_csv` from src/app.py. -/
def process_csv (rows : List Row) : Except Unit (Artists × List Row) :=
  match runRows rows [] [] with
  | .error e => .error e
  | .ok (A, sk) => .ok (A.map sortEntry, sk)
/- ------------------------------------------------------------------
Specification-side definitions (stated from the spec's words, to be
compared with the behaviour of the source functions above).
------------------------------------------------------------------ -/

/-- Spec-side: the "no artist" condition of `parse_category`'s rule 1. -/
abbrev SentinelCat (s : Str) : Prop :=
  s = [] ∨ pyLower (pyStrip s) = strL "none"

/-- Spec-side: `s` ends with the trailing parenthetical integer pattern:
`s` is a prefix `pre`, then `(`, one or more digits `ds`, `)`, and only
whitespace to the end of the string. -/
def TrailingMatch (s pre ds : Str) : Prop :=
  ∃ ws : Str, s = pre ++ '(' :: (ds ++ ')' :: ws) ∧ ds ≠ [] ∧
    (∀ c ∈ ds, c.isDigit = true) ∧ (∀ c ∈ ws, pyIsSpace c = true)

/-- Spec-side: the commission rate parsed from the first row (in input
order) whose category yields artist `a`. -/
def specFirstRate (rows : List Row) (a : Str) : Option Dec :=
  (rows.find? (fun r => decide (rowArtist r = a))).map rowRate

/-- Spec-side: the records accumulated for artist `a`, in input order
(rows whose category yields `a`, with their coerced quantity). -/
def specAccum (rows : List Row) (a : Str) : List SaleRecord :=
  rows.filterMap (fun r =>
    if rowArtist r = a then
      match qtyCoerce r.qty with
      | .ok q => some (rowSale r q)
      | .error _ => none
    else none)

/-- The commission rate stored in an optional report. -/
def rateOf (o : Option ArtistReport) : Option Dec := o.map ArtistReport.commission_rate

/-- The sales stored in an optional report (empty when absent). -/
def salesOf (o : Option ArtistReport) : List SaleRecord := (o.map ArtistReport.sales).getD []

/- ------------------------------------------------------------------
Concrete fixtures used by witnesses and counterexamples.
------------------------------------------------------------------ -/

def rowAnnPrint : Row :=
  ⟨some (strL "Ann (20)"), some (strL "$100.00"), some (strL "1"),
   some (strL "2024-01-02"), some (strL "Print")⟩

def rowAnnCard : Row :=
  ⟨some (strL "Ann (25)"), some (strL "$50.00"), some (strL "1"),
   some (strL "2024-01-01"), some (strL "Card")⟩

def rowNone : Row :=
  ⟨some (strL "None"), some (strL "$10"), some (strL "1"),
   some (strL "2024-01-01"), some (strL "Misc")⟩

def rowsE2E : List Row := [rowAnnPrint, rowAnnCard, rowNone]

def salePrint : SaleRecord := ⟨strL "2024-01-02", strL "Print", 1, .finite ⟨10000, 2⟩⟩

def saleCard : SaleRecord := ⟨strL "2024-01-01", strL "Card", 1, .finite ⟨5000, 2⟩⟩

def repAnn : ArtistReport := ⟨strL "Ann", ⟨20, 2⟩, [saleCard, salePrint]⟩

def artistsE2E : Artists := [(strL "Ann", repAnn)]

/-- A row whose `Qty` text parses to a float but not to an int. -/
def rowInfQty : Row :=
  ⟨some (strL "Ann"), some (strL "$5.00"), some (strL "inf"),
   some (strL "2024-01-01"), some (strL "Print")⟩

/-- A row whose `Net Sales` text parses to the float infinity. -/
def rowInfNet : Row :=
  ⟨some (strL "Ann"), some (strL "inf"), some (strL "1"),
   some (strL "2024-01-01"), some (strL "X")⟩

def repInf : ArtistReport :=
  ⟨strL "Ann", ⟨30, 2⟩, [⟨strL "2024-01-01", strL "X", 1, .inf⟩]⟩

def rowJD : Row :=
  ⟨some (strL "Jane Doe"), some (strL "$100.00"), some (strL "1"),
   some (strL "2024-01-01"), some (strL "A")⟩

def rowjd : Row :=
  ⟨some (strL "jane doe"), some (strL "$50.00"), some (strL "1"),
   some (strL "2024-01-02"), some (strL "B")⟩

def rowsCase : List Row := [rowJD, rowjd]

def repJD : ArtistReport :=
  ⟨strL "Jane Doe", ⟨30, 2⟩, [⟨strL "2024-01-01", strL "A", 1, .finite ⟨10000, 2⟩⟩]⟩

def repjd : ArtistReport :=
  ⟨strL "jane doe", ⟨30, 2⟩, [⟨strL "2024-01-02", strL "B", 1, .finite ⟨5000, 2⟩⟩]⟩

def artistsCase : Artists := [(strL "Jane Doe", repJD), (strL "jane doe", repjd)]

/- ------------------------------------------------------------------
Helper lemmas.
------------------------------------------------------------------ -/

theorem pyStrip_eq_nil (s : Str) (h : ∀ c ∈ s, pyIsSpace c = true) : pyStrip s = [] := by
  unfold pyStrip
  rw [List.dropWhile_eq_nil_iff.mpr h]
  rfl

theorem matchSuffix_cons_ne (c : Char) (cs : Str) (h : ¬ c = '(') :
    matchSuffix (c :: cs) = none := by
  simp only [matchSuffix]
  rw [if_neg h]

theorem searchCommission_of_no_paren (s : Str) (h : '(' ∉ s) : searchCommission s = none := by
  induction s with
  | nil => rfl
  | cons c cs ih =>
    have hc : ¬ c = '(' := fun e => h (by rw [e]; exact List.mem_cons_self _ _)
    have hcs : '(' ∉ cs := fun m => h (List.mem_cons_of_mem _ m)
    simp only [searchCommission, matchSuffix_cons_ne c cs hc, ih hcs]

theorem parse_category_rate_cases (s : Str) :
    (parse_category s).2 = ⟨0, 1⟩ ∨ (parse_category s).2 = ⟨30, 2⟩ ∨
      ∃ n : Nat, (parse_category s).2 = ⟨(n : Int), 2⟩ := by
  unfold parse_category
  split
  · exact Or.inl rfl
  · split
    · exact Or.inr (Or.inr ⟨_, rfl⟩)
    · exact Or.inr (Or.inl rfl)

theorem parse_category_rate_val_nonneg (s : Str) : 0 ≤ Dec.val (parse_category s).2 := by
  rcases parse_category_rate_cases s with h | h | ⟨n, h⟩ <;> rw [h]
  · norm_num [Dec.val]
  · norm_num [Dec.val]
  · unfold Dec.val
    positivity

/- ------------------------------------------------------------------
Claim theorems.
------------------------------------------------------------------ -/

/-- C1 (amended): `parse_category` returns the no-artist sentinel
`("", 0.0)` for the empty string and for every string whose trimmed text
equals "none" case-insensitively; but a non-empty whitespace-only (blank)
category does NOT reach the sentinel branch: it falls through to the
default and returns `("", 0.30)` (empty name, default rate). -/
theorem C1_sentinel_amended :
    (∀ s : Str, (s = [] ∨ pyLower (pyStrip s) = strL "none") →
        parse_category s = ([], ⟨0, 1⟩))
    ∧ (∀ s : Str, s ≠ [] → (∀ c ∈ s, pyIsSpace c = true) →
        parse_category s = ([], ⟨30, 2⟩)) := by
  constructor
  · intro s h
    unfold parse_category
    rw [if_pos h]
  · intro s hne hsp
    have hstrip : pyStrip s = [] := pyStrip_eq_nil s hsp
    have hcond : ¬(s = [] ∨ pyLower (pyStrip s) = strL "none") := by
      rintro (rfl | hx)
      · exact hne rfl
      · rw [hstrip] at hx
        exact absurd hx (by decide)
    have hnp : '(' ∉ s := fun m => absurd (hsp _ m) (by decide)
    unfold parse_category
    rw [if_neg hcond, searchCommission_of_no_paren s hnp]
    show (cleanName s, (⟨30, 2⟩ : Dec)) = ([], ⟨30, 2⟩)
    unfold cleanName
    rw [hstrip]
    rfl

/-- C1 counterexample: the whitespace-only category `" "` is claimed to
yield the sentinel `("", 0.0)`, but the code returns the default rate
`0.30` (value 3/10 ≠ 0) with it. -/
theorem C1_counterexample :
    parse_category (strL " ") = ([], ⟨30, 2⟩) ∧ Dec.val (⟨30, 2⟩ : Dec) ≠ 0 := by
  constructor
  · decide
  · norm_num [Dec.val]

/-- C1 witness: the amended theorem applied to `"NoNe "` and `" "`. -/
theorem C1_witness :
    parse_category (strL "NoNe ") = ([], ⟨0, 1⟩)
    ∧ parse_category (strL " ") = ([], ⟨30, 2⟩) :=
  ⟨C1_sentinel_amended.1 _ (Or.inr (by decide)),
   C1_sentinel_amended.2 _ (by decide) (by decide)⟩

/-- C3: the aggregation stage CAN raise.  A row whose `Qty` text is
`"inf"` makes `int(float("inf"))` raise `OverflowError`, which the
`except ValueError` clause of `process_csv` does not catch, so the
whole run fails instead of degrading the field to zero. -/
theorem C3_process_csv_raises : process_csv [rowInfQty] = .error () := by decide

/-- C6 counterexample: the category `"Artist (250)"` parses to commission
rate 250/100 = 2.5, outside the claimed interval [0, 1]. -/
theorem C6_counterexample :
    (parse_category (strL "Artist (250)")).2 = ⟨250, 2⟩
    ∧ ¬(Dec.val (⟨250, 2⟩ : Dec) ≤ 1) := by
  constructor
  · decide
  · norm_num [Dec.val]

/-- C7: the `Qty` coercion truncates the parsed float (`"3.0"` → 3) and
maps missing / empty / unparseable / NaN input to 0, but an input that
parses to an infinity raises an uncaught `OverflowError` (`.error ()`),
contradicting "no error is ever raised". -/
theorem C7_qty_coercion :
    qtyCoerce (some (strL "3.0")) = .ok 3
    ∧ qtyCoerce (some (strL "3")) = .ok 3
    ∧ qtyCoerce (some (strL "-2.7")) = .ok (-2)
    ∧ qtyCoerce none = .ok 0
    ∧ qtyCoerce (some (strL "")) = .ok 0
    ∧ qtyCoerce (some (strL "abc")) = .ok 0
    ∧ qtyCoerce (some (strL "nan")) = .ok 0
    ∧ qtyCoerce (some (strL "inf")) = .error ()
    ∧ qtyCoerce (some (strL "-Infinity")) = .error () := by
  decide

/-- C8: `parse_dollar` strips `$`, `,` and whitespace; an empty residue or
a residue `float` rejects yields `0.0` (no error); a leading minus gives a
negative amount.  The claimed examples hold exactly. -/
theorem C8_parse_dollar_spec :
    (parse_dollar (strL "$25.00") = .finite ⟨2500, 2⟩
      ∧ Dec.val ⟨2500, 2⟩ = 25
      ∧ parse_dollar (strL "-$2.00") = .finite ⟨-200, 2⟩
      ∧ Dec.val ⟨-200, 2⟩ = -2
      ∧ parse_dollar (strL "") = .finite ⟨0, 1⟩
      ∧ parse_dollar (strL "garbage") = .finite ⟨0, 1⟩
      ∧ Dec.val ⟨0, 1⟩ = 0
      ∧ parse_dollar (strL "$1,000.50") = .finite ⟨100050, 2⟩)
    ∧ (∀ v : Str, dollarResidue v = [] → parse_dollar v = .finite ⟨0, 1⟩)
    ∧ (∀ v : Str, pyFloatOfStr (dollarResidue v) = none → parse_dollar v = .finite ⟨0, 1⟩) := by
  refine ⟨⟨by decide, by norm_num [Dec.val], by decide, by norm_num [Dec.val],
           by decide, by decide, by norm_num [Dec.val], by decide⟩, ?_, ?_⟩
  · intro v h
    unfold parse_dollar
    rw [if_pos h]
  · intro v h
    unfold parse_dollar
    by_cases he : dollarResidue v = []
    · rw [if_pos he]
    · rw [if_neg he, h]

/-- C8 witness: the two universally quantified fallback clauses applied to
`"$ ,"` (empty residue) and `"1.2.3"` (residue rejected by float). -/
theorem C8_witness :
    parse_dollar (strL "$ ,") = .finite ⟨0, 1⟩
    ∧ parse_dollar (strL "1.2.3") = .finite ⟨0, 1⟩ :=
  ⟨C8_parse_dollar_spec.2.1 _ (by decide), C8_parse_dollar_spec.2.2 _ (by decide)⟩

/-- C10: grouping uses the parsed name as an exact key: two rows whose
categories differ only in letter case produce two distinct reports with
separate totals. -/
theorem C10_exact_key_grouping :
    process_csv rowsCase = .ok (artistsCase, [])
    ∧ strL "Jane Doe" ≠ strL "jane doe"
    ∧ lookupA artistsCase (strL "Jane Doe") = some repJD
    ∧ lookupA artistsCase (strL "jane doe") = some repjd
    ∧ repJD.name ≠ repjd.name
    ∧ total_net_sales repJD = .finite ⟨10000, 2⟩
    ∧ total_net_sales repjd = .finite ⟨5000, 2⟩ := by
  decide

/- ------------------------------------------------------------------
Lemmas about the aggregation loop.
------------------------------------------------------------------ -/

theorem lookupA_cons (k : Str) (v : ArtistReport) (t : Artists) (a : Str) :
    lookupA ((k, v) :: t) a = if k = a then some v else lookupA t a := rfl

theorem lookupA_append_other (A : Artists) (n a : Str) (rep : ArtistReport)
    (h : ¬ n = a) : lookupA (A ++ [(n, rep)]) a = lookupA A a := by
  induction A with
  | nil =>
    show (if n = a then some rep else none) = none
    rw [if_neg h]
  | cons e t ih =>
    cases e with
    | mk k v =>
      rw [List.cons_append, lookupA_cons, lookupA_cons]
      by_cases hk : k = a
      · rw [if_pos hk, if_pos hk]
      · rw [if_neg hk, if_neg hk, ih]

theorem lookupA_append_self (A : Artists) (n : Str) (rep : ArtistReport)
    (h : lookupA A n = none) : lookupA (A ++ [(n, rep)]) n = some rep := by
  induction A with
  | nil =>
    show (if n = n then some rep else none) = some rep
    rw [if_pos rfl]
  | cons e t ih =>
    cases e with
    | mk k v =>
      rw [lookupA_cons] at h
      rw [List.cons_append, lookupA_cons]
      by_cases hk : k = n
      · rw [if_pos hk] at h; cases h
      · rw [if_neg hk] at h
        rw [if_neg hk, ih h]

theorem addSale_cons (k : Str) (v : ArtistReport) (t : Artists) (n : Str) (sale : SaleRecord) :
    addSale ((k, v) :: t) n sale =
      (if k = n then (k, { v with sales := v.sales ++ [sale] }) else (k, v)) :: addSale t n sale := by
  unfold addSale
  rw [List.map_cons]

theorem lookupA_addSale (A : Artists) (n : Str) (sale : SaleRecord) (a : Str) :
    lookupA (addSale A n sale) a =
      if a = n then
        (lookupA A a).map (fun rep => { rep with sales := rep.sales ++ [sale] })
      else lookupA A a := by
  induction A with
  | nil =>
    by_cases ha : a = n
    · rw [if_pos ha]; rfl
    · rw [if_neg ha]; rfl
  | cons e t ih =>
    cases e with
    | mk k v =>
      rw [addSale_cons]
      by_cases hk : k = n
      · rw [if_pos hk, lookupA_cons, lookupA_cons]
        by_cases hka : k = a
        · rw [if_pos hka, if_pos hka, if_pos (by rw [← hka]; exact hk)]
          rfl
        · rw [if_neg hka, if_neg hka, ih]
      · rw [if_neg hk, lookupA_cons, lookupA_cons]
        by_cases hka : k = a
        · rw [if_pos hka, if_pos hka, if_neg (by rw [← hka]; exact hk)]
        · rw [if_neg hka, if_neg hka, ih]

theorem lookupA_map_sortEntry (A : Artists) (a : Str) :
    lookupA (A.map sortEntry) a =
      (lookupA A a).map (fun rep => { rep with sales := sortByDate rep.sales }) := by
  induction A with
  | nil => rfl
  | cons e t ih =>
    cases e with
    | mk k v =>
      rw [List.map_cons]
      show lookupA ((k, { v with sales := sortByDate v.sales }) :: t.map sortEntry) a = _
      rw [lookupA_cons, lookupA_cons]
      by_cases hk : k = a
      · rw [if_pos hk, if_pos hk]
        rfl
      · rw [if_neg hk, if_neg hk, ih]

theorem step_skip (A : Artists) (sk : List Row) (r : Row) (h : rowArtist r = []) :
    step A sk r = .ok (A, sk ++ [r]) := by
  unfold step
  rw [if_pos h]

theorem step_attr (A : Artists) (sk : List Row) (r : Row) (q : Int)
    (hn : ¬ rowArtist r = []) (hq : qtyCoerce r.qty = .ok q) :
    step A sk r = .ok (addSale
      (if (lookupA A (rowArtist r)).isSome then A
       else A ++ [(rowArtist r, ⟨rowArtist r, rowRate r, []⟩)])
      (rowArtist r) (rowSale r q), sk) := by
  unfold step
  rw [if_neg hn, hq]

theorem step_err (A : Artists) (sk : List Row) (r : Row)
    (hn : ¬ rowArtist r = []) (hq : qtyCoerce r.qty = .error ()) :
    step A sk r = .error () := by
  unfold step
  rw [if_neg hn, hq]

theorem runRows_cons (r : Row) (rs : List Row) (A : Artists) (sk : List Row) :
    runRows (r :: rs) A sk =
      match step A sk r with
      | .error e => .error e
      | .ok (A1, sk1) => runRows rs A1 sk1 := rfl

theorem specFirstRate_cons_skip (r : Row) (rs : List Row) (a : Str)
    (h : ¬ rowArtist r = a) : specFirstRate (r :: rs) a = specFirstRate rs a := by
  unfold specFirstRate
  rw [List.find?_cons_of_neg _ (by simp [h])]

theorem specFirstRate_cons_hit (r : Row) (rs : List Row) :
    specFirstRate (r :: rs) (rowArtist r) = some (rowRate r) := by
  unfold specFirstRate
  rw [List.find?_cons_of_pos _ (by simp)]
  rfl

theorem runRows_rate : ∀ (rs : List Row) (A : Artists) (sk : List Row)
    (A' : Artists) (sk' : List Row),
    runRows rs A sk = .ok (A', sk') → ∀ a : Str, a ≠ [] →
    rateOf (lookupA A' a) =
      match lookupA A a with
      | some rep => some rep.commission_rate
      | none => specFirstRate rs a := by
  intro rs
  induction rs with
  | nil =>
    intro A sk A' sk' h a _
    cases h
    cases hL : lookupA A a with
    | none => simp [rateOf, specFirstRate]
    | some rep => simp [rateOf]
  | cons r rs ih =>
    intro A sk A' sk' h a ha
    rw [runRows_cons] at h
    by_cases hskip : rowArtist r = []
    · rw [step_skip A sk r hskip] at h
      have hih := ih A (sk ++ [r]) A' sk' h a ha
      rw [hih, specFirstRate_cons_skip r rs a (by rw [hskip]; exact fun e => ha e.symm)]
    · cases hq : qtyCoerce r.qty with
      | error e =>
        cases e
        rw [step_err A sk r hskip hq] at h
        cases h
      | ok q =>
        rw [step_attr A sk r q hskip hq] at h
        have hih := ih _ _ A' sk' h a ha
        by_cases han : a = rowArtist r
        · subst han
          cases hL : lookupA A (rowArtist r) with
          | some rep =>
            have hbase : (if (lookupA A (rowArtist r)).isSome then A
                else A ++ [(rowArtist r, ⟨rowArtist r, rowRate r, []⟩)]) = A := by
              rw [hL]; rfl
            rw [hbase, lookupA_addSale, if_pos rfl, hL] at hih
            rw [hih]
            rfl
          | none =>
            have hbase : (if (lookupA A (rowArtist r)).isSome then A
                else A ++ [(rowArtist r, ⟨rowArtist r, rowRate r, []⟩)])
                = A ++ [(rowArtist r, ⟨rowArtist r, rowRate r, []⟩)] := by
              rw [hL]; rfl
            rw [hbase, lookupA_addSale, if_pos rfl, lookupA_append_self A _ _ hL] at hih
            rw [hih, specFirstRate_cons_hit]
            rfl
        · have hA1 : lookupA (addSale
              (if (lookupA A (rowArtist r)).isSome then A
               else A ++ [(rowArtist r, ⟨rowArtist r, rowRate r, []⟩)])
              (rowArtist r) (rowSale r q)) a = lookupA A a := by
            rw [lookupA_addSale, if_neg han]
            by_cases hs : (lookupA A (rowArtist r)).isSome
            · rw [if_pos hs]
            · rw [if_neg hs, lookupA_append_other A _ a _ (fun e => han e.symm)]
          rw [hA1] at hih
          rw [hih, specFirstRate_cons_skip r rs a (fun e => han e.symm)]

theorem runRows_keeps_no_empty_key : ∀ (rs : List Row) (A : Artists) (sk : List Row)
    (A' : Artists) (sk' : List Row),
    runRows rs A sk = .ok (A', sk') → lookupA A [] = none → lookupA A' [] = none := by
  intro rs
  induction rs with
  | nil =>
    intro A sk A' sk' h h0
    cases h
    exact h0
  | cons r rs ih =>
    intro A sk A' sk' h h0
    rw [runRows_cons] at h
    by_cases hskip : rowArtist r = []
    · rw [step_skip A sk r hskip] at h
      exact ih _ _ _ _ h h0
    · cases hq : qtyCoerce r.qty with
      | error e =>
        cases e
        rw [step_err A sk r hskip hq] at h
        cases h
      | ok q =>
        rw [step_attr A sk r q hskip hq] at h
        refine ih _ _ _ _ h ?_
        rw [lookupA_addSale, if_neg (fun e => hskip e.symm)]
        by_cases hs : (lookupA A (rowArtist r)).isSome
        · rw [if_pos hs]
          exact h0
        · rw [if_neg hs, lookupA_append_other A _ _ _ hskip]
          exact h0

theorem process_csv_ok (rows : List Row) (A : Artists) (sk : List Row)
    (h : process_csv rows = .ok (A, sk)) :
    ∃ A0, runRows rows [] [] = .ok (A0, sk) ∧ A = A0.map sortEntry := by
  unfold process_csv at h
  cases hr : runRows rows [] [] with
  | error e => rw [hr] at h; cases h
  | ok p =>
    cases p with
    | mk A0 sk0 =>
      rw [hr] at h
      injection h with h1
      cases h1
      exact ⟨A0, rfl, rfl⟩

/-- The rate stored in any report of a finished run is the rate parsed
from the first row attributing to that artist (shared backbone of C2 and
of the rate-range fact of C6). -/
theorem process_rate_eq_first (rows : List Row) (A : Artists) (sk : List Row)
    (a : Str) (rep : ArtistReport)
    (h : process_csv rows = .ok (A, sk)) (hl : lookupA A a = some rep) :
    specFirstRate rows a = some rep.commission_rate := by
  obtain ⟨A0, hrun, hA⟩ := process_csv_ok rows A sk h
  subst hA
  by_cases ha : a = []
  · subst ha
    have h0 : lookupA A0 [] = none := runRows_keeps_no_empty_key rows [] [] A0 sk hrun rfl
    rw [lookupA_map_sortEntry, h0] at hl
    cases hl
  · have hr := runRows_rate rows [] [] A0 sk hrun a ha
    rw [lookupA_map_sortEntry] at hl
    cases hL0 : lookupA A0 a with
    | none => rw [hL0] at hl; cases hl
    | some rep0 =>
      rw [hL0] at hl
      injection hl with hl2
      rw [hL0] at hr
      simp only [rateOf, lookupA, Option.map] at hr
      rw [← hl2]
      exact hr.symm

/-- C2: for every row list and artist name, the commission rate of the
resulting report equals the rate parsed from the first row (in input
order) whose category yields that name; later rows never change it. -/
theorem C2_first_row_fixes_rate (rows : List Row) (A : Artists) (sk : List Row)
    (a : Str) (rep : ArtistReport)
    (h : process_csv rows = .ok (A, sk)) (hl : lookupA A a = some rep) :
    specFirstRate rows a = some rep.commission_rate :=
  process_rate_eq_first rows A sk a rep h hl

/-- C2 witness: in the end-to-end fixture the first "Ann" row encodes rate
20, the second encodes 25; the report keeps 20/100. -/
theorem C2_witness : specFirstRate rowsE2E (strL "Ann") = some (⟨20, 2⟩ : Dec) :=
  C2_first_row_fixes_rate rowsE2E artistsE2E [rowNone] (strL "Ann") repAnn
    (by decide) (by decide)

/-- C6 (amended): the commission rate produced by `parse_category` — and
hence the rate stored in every `ArtistReport` — is always nonnegative,
but it is NOT bounded by 1 (see the counterexample): a trailing
parenthetical integer above 100 gives a rate above 1. -/
theorem C6_rate_nonneg_amended :
    (∀ s : Str, 0 ≤ Dec.val (parse_category s).2)
    ∧ (∀ (rows : List Row) (A : Artists) (sk : List Row) (a : Str) (rep : ArtistReport),
        process_csv rows = .ok (A, sk) → lookupA A a = some rep →
        0 ≤ Dec.val rep.commission_rate) := by
  refine ⟨parse_category_rate_val_nonneg, ?_⟩
  intro rows A sk a rep h hl
  have hsf := process_rate_eq_first rows A sk a rep h hl
  unfold specFirstRate at hsf
  cases hf : List.find? (fun r => decide (rowArtist r = a)) rows with
  | none => rw [hf] at hsf; cases hsf
  | some r0 =>
    rw [hf] at hsf
    injection hsf with h2
    rw [← h2]
    exact parse_category_rate_val_nonneg (rowCategory r0)

/-- C6 witness: the report-level bound applied to the end-to-end run. -/
theorem C6_witness : 0 ≤ Dec.val (⟨20, 2⟩ : Dec) :=
  C6_rate_nonneg_amended.2 rowsE2E artistsE2E [rowNone] (strL "Ann") repAnn
    (by decide) (by decide)

/- ------------------------------------------------------------------
The date sort: permutation, sortedness, stability.
------------------------------------------------------------------ -/

theorem lexLe_refl (a : Str) : lexLe a a = true := by
  induction a with
  | nil => rfl
  | cons x xs ih => simp [lexLe, lt_irrefl, ih]

theorem lexLe_total (a b : Str) : lexLe a b = true ∨ lexLe b a = true := by
  induction a generalizing b with
  | nil => exact Or.inl rfl
  | cons x xs ih =>
    cases b with
    | nil => exact Or.inr rfl
    | cons y ys =>
      by_cases hxy : x < y
      · left; simp [lexLe, hxy]
      · by_cases hyx : y < x
        · right; simp [lexLe, hyx]
        · rcases ih ys with h | h
          · left; simp [lexLe, hxy, hyx, h]
          · right; simp [lexLe, hyx, hxy, h]

theorem lexLe_trans : ∀ (a b c : Str),
    lexLe a b = true → lexLe b c = true → lexLe a c = true := by
  intro a
  induction a with
  | nil => intro b c _ _; rfl
  | cons x xs ih =>
    intro b c h1 h2
    cases b with
    | nil => simp [lexLe] at h1
    | cons y ys =>
      cases c with
      | nil => simp [lexLe] at h2
      | cons z zs =>
        simp only [lexLe] at h1 h2 ⊢
        by_cases hxy : x < y
        · by_cases hyz : y < z
          · rw [if_pos (lt_trans hxy hyz)]
          · by_cases hzy : z < y
            · rw [if_neg hyz, if_pos hzy] at h2
              simp at h2
            · have hyz2 : y = z := le_antisymm (not_lt.mp hzy) (not_lt.mp hyz)
              rw [if_pos (hyz2 ▸ hxy)]
        · by_cases hyx : y < x
          · rw [if_neg hxy, if_pos hyx] at h1
            simp at h1
          · have hxy2 : x = y := le_antisymm (not_lt.mp hyx) (not_lt.mp hxy)
            rw [if_neg hxy, if_neg hyx] at h1
            by_cases hyz : y < z
            · rw [if_pos (hxy2 ▸ hyz)]
            · by_cases hzy : z < y
              · rw [if_neg hyz, if_pos hzy] at h2
                simp at h2
              · have hyz2 : y = z := le_antisymm (not_lt.mp hzy) (not_lt.mp hyz)
                have hxz : ¬ x < z := by rw [hxy2, hyz2]; exact lt_irrefl z
                have hzx : ¬ z < x := by rw [hxy2, hyz2]; exact lt_irrefl z
                rw [if_neg hyz, if_neg hzy] at h2
                rw [if_neg hxz, if_neg hzx]
                exact ih ys zs h1 h2

theorem insertByDate_perm (s : SaleRecord) (l : List SaleRecord) :
    (insertByDate s l).Perm (s :: l) := by
  induction l with
  | nil => exact List.Perm.refl _
  | cons t ts ih =>
    unfold insertByDate
    by_cases h : lexLe s.date t.date = true
    · rw [if_pos h]
    · rw [if_neg h]
      exact (ih.cons t).trans (List.Perm.swap s t ts)

theorem sortByDate_perm (l : List SaleRecord) : (sortByDate l).Perm l := by
  induction l with
  | nil => exact List.Perm.refl _
  | cons s ss ih => exact (insertByDate_perm s (sortByDate ss)).trans (ih.cons s)

theorem mem_insertByDate (u s : SaleRecord) (l : List SaleRecord) :
    u ∈ insertByDate s l ↔ u = s ∨ u ∈ l := by
  rw [List.Perm.mem_iff (insertByDate_perm s l), List.mem_cons]

theorem insertByDate_pairwise (s : SaleRecord) (l : List SaleRecord)
    (h : l.Pairwise (fun x y => lexLe x.date y.date = true)) :
    (insertByDate s l).Pairwise (fun x y => lexLe x.date y.date = true) := by
  induction l with
  | nil => simp [insertByDate]
  | cons t ts ih =>
    rcases List.pairwise_cons.mp h with ⟨ht, hts⟩
    unfold insertByDate
    by_cases hle : lexLe s.date t.date = true
    · rw [if_pos hle]
      refine List.pairwise_cons.mpr ⟨?_, h⟩
      intro u hu
      rcases List.mem_cons.mp hu with rfl | hu2
      · exact hle
      · exact lexLe_trans _ _ _ hle (ht u hu2)
    · rw [if_neg hle]
      refine List.pairwise_cons.mpr ⟨?_, ih hts⟩
      intro u hu
      rcases (mem_insertByDate u s ts).mp hu with rfl | hu2
      · rcases lexLe_total u.date t.date with hst | hts2
        · exact absurd hst hle
        · exact hts2
      · exact ht u hu2

theorem sortByDate_pairwise (l : List SaleRecord) :
    (sortByDate l).Pairwise (fun x y => lexLe x.date y.date = true) := by
  induction l with
  | nil => exact List.Pairwise.nil
  | cons s ss ih => exact insertByDate_pairwise s (sortByDate ss) ih

theorem insertByDate_filter_date (s : SaleRecord) (l : List SaleRecord) (d : Str) :
    (insertByDate s l).filter (fun u => decide (u.date = d)) =
      (s :: l).filter (fun u => decide (u.date = d)) := by
  induction l with
  | nil => rfl
  | cons t ts ih =>
    unfold insertByDate
    by_cases hle : lexLe s.date t.date = true
    · rw [if_pos hle]
    · rw [if_neg hle]
      by_cases hs : s.date = d
      · have ht : ¬ t.date = d := fun htd => hle (by rw [hs, htd]; exact lexLe_refl d)
        simp [List.filter_cons, ih, hs, ht]
      · simp [List.filter_cons, ih, hs]

theorem sortByDate_filter_date (l : List SaleRecord) (d : Str) :
    (sortByDate l).filter (fun u => decide (u.date = d)) =
      l.filter (fun u => decide (u.date = d)) := by
  induction l with
  | nil => rfl
  | cons s ss ih =>
    show (insertByDate s (sortByDate ss)).filter _ = _
    rw [insertByDate_filter_date, List.filter_cons, List.filter_cons, ih]

/- ------------------------------------------------------------------
The accumulated sales of each artist.
------------------------------------------------------------------ -/

theorem specAccum_cons_skip (r : Row) (rs : List Row) (a : Str)
    (h : ¬ rowArtist r = a) : specAccum (r :: rs) a = specAccum rs a := by
  unfold specAccum
  rw [List.filterMap_cons, if_neg h]

theorem specAccum_cons_hit (r : Row) (rs : List Row) (q : Int)
    (hq : qtyCoerce r.qty = .ok q) :
    specAccum (r :: rs) (rowArtist r) = rowSale r q :: specAccum rs (rowArtist r) := by
  unfold specAccum
  rw [List.filterMap_cons, if_pos rfl, hq]

theorem runRows_sales : ∀ (rs : List Row) (A : Artists) (sk : List Row)
    (A' : Artists) (sk' : List Row),
    runRows rs A sk = .ok (A', sk') → ∀ a : Str, a ≠ [] →
    salesOf (lookupA A' a) = salesOf (lookupA A a) ++ specAccum rs a := by
  intro rs
  induction rs with
  | nil =>
    intro A sk A' sk' h a _
    cases h
    show salesOf (lookupA A a) = salesOf (lookupA A a) ++ ([] : List SaleRecord)
    rw [List.append_nil]
  | cons r rs ih =>
    intro A sk A' sk' h a ha
    rw [runRows_cons] at h
    by_cases hskip : rowArtist r = []
    · rw [step_skip A sk r hskip] at h
      rw [ih A (sk ++ [r]) A' sk' h a ha,
          specAccum_cons_skip r rs a (by rw [hskip]; exact fun e => ha e.symm)]
    · cases hq : qtyCoerce r.qty with
      | error e =>
        cases e
        rw [step_err A sk r hskip hq] at h
        cases h
      | ok q =>
        rw [step_attr A sk r q hskip hq] at h
        have hih := ih _ _ A' sk' h a ha
        by_cases han : a = rowArtist r
        · subst han
          cases hL : lookupA A (rowArtist r) with
          | some rep =>
            have hbase : (if (lookupA A (rowArtist r)).isSome then A
                else A ++ [(rowArtist r, ⟨rowArtist r, rowRate r, []⟩)]) = A := by
              rw [hL]; rfl
            rw [hbase, lookupA_addSale, if_pos rfl, hL] at hih
            rw [hih, specAccum_cons_hit r rs q hq]
            show (rep.sales ++ [rowSale r q]) ++ specAccum rs (rowArtist r)
                = rep.sales ++ (rowSale r q :: specAccum rs (rowArtist r))
            rw [List.append_assoc]
            rfl
          | none =>
            have hbase : (if (lookupA A (rowArtist r)).isSome then A
                else A ++ [(rowArtist r, ⟨rowArtist r, rowRate r, []⟩)])
                = A ++ [(rowArtist r, ⟨rowArtist r, rowRate r, []⟩)] := by
              rw [hL]; rfl
            rw [hbase, lookupA_addSale, if_pos rfl, lookupA_append_self A _ _ hL] at hih
            rw [hih, specAccum_cons_hit r rs q hq]
            rfl
        · have hA1 : lookupA (addSale
              (if (lookupA A (rowArtist r)).isSome then A
               else A ++ [(rowArtist r, ⟨rowArtist r, rowRate r, []⟩)])
              (rowArtist r) (rowSale r q)) a = lookupA A a := by
            rw [lookupA_addSale, if_neg han]
            by_cases hs : (lookupA A (rowArtist r)).isSome
            · rw [if_pos hs]
            · rw [if_neg hs, lookupA_append_other A _ a _ (fun e => han e.symm)]
          rw [hA1] at hih
          rw [hih, specAccum_cons_skip r rs a (fun e => han e.symm)]

/-- C9: in the finished run, each report's sales list is a permutation of
that artist's accumulated records (rows attributed to the artist, in
input order), it is sorted ascending by the date string, and the sort is
stable: records with equal dates keep their input order (the filter to
any fixed date is unchanged). -/
theorem C9_sales_sorted_stable (rows : List Row) (A : Artists) (sk : List Row)
    (a : Str) (rep : ArtistReport)
    (h : process_csv rows = .ok (A, sk)) (hl : lookupA A a = some rep) :
    rep.sales.Perm (specAccum rows a)
    ∧ rep.sales.Pairwise (fun x y => lexLe x.date y.date = true)
    ∧ ∀ d : Str, rep.sales.filter (fun u => decide (u.date = d)) =
        (specAccum rows a).filter (fun u => decide (u.date = d)) := by
  obtain ⟨A0, hrun, hA⟩ := process_csv_ok rows A sk h
  subst hA
  by_cases ha : a = []
  · subst ha
    have h0 := runRows_keeps_no_empty_key rows [] [] A0 sk hrun rfl
    rw [lookupA_map_sortEntry, h0] at hl
    cases hl
  · have hs := runRows_sales rows [] [] A0 sk hrun a ha
    rw [lookupA_map_sortEntry] at hl
    cases hL0 : lookupA A0 a with
    | none => rw [hL0] at hl; cases hl
    | some rep0 =>
      rw [hL0] at hl
      injection hl with hl2
      rw [hL0] at hs
      have hsales : rep0.sales = specAccum rows a := by
        simpa [salesOf, lookupA] using hs
      have hrep : rep.sales = sortByDate rep0.sales := by rw [← hl2]
      rw [hrep, hsales]
      exact ⟨sortByDate_perm _, sortByDate_pairwise _, fun d => sortByDate_filter_date _ d⟩

/-- C9 witness: the end-to-end fixture, whose two "Ann" rows arrive in
reverse date order. -/
theorem C9_witness :
    repAnn.sales.Perm (specAccum rowsE2E (strL "Ann"))
    ∧ repAnn.sales.Pairwise (fun x y => lexLe x.date y.date = true)
    ∧ ∀ d : Str, repAnn.sales.filter (fun u => decide (u.date = d)) =
        (specAccum rowsE2E (strL "Ann")).filter (fun u => decide (u.date = d)) :=
  C9_sales_sorted_stable rowsE2E artistsE2E [rowNone] (strL "Ann") repAnn
    (by decide) (by decide)

/- ------------------------------------------------------------------
The rounding invariant of the derived report metrics.
------------------------------------------------------------------ -/

theorem pySum_finite_aux : ∀ (l : List PyFloat) (acc : Dec),
    (∀ x ∈ l, x.isFinite = true) →
    ∃ d : Dec, l.foldl PyFloat.add (.finite acc) = .finite d := by
  intro l
  induction l with
  | nil => intro acc _; exact ⟨acc, rfl⟩
  | cons x xs ih =>
    intro acc h
    cases x with
    | finite dx => exact ih (Dec.add acc dx) (fun y hy => h y (List.mem_cons_of_mem _ hy))
    | inf => exact absurd (h _ (List.mem_cons_self _ _)) (by decide)
    | ninf => exact absurd (h _ (List.mem_cons_self _ _)) (by decide)
    | nan => exact absurd (h _ (List.mem_cons_self _ _)) (by decide)

theorem round2_shape (d : Dec) : ∃ m : Int, Dec.round2 d = ⟨m, 2⟩ := by
  unfold Dec.round2
  split
  · exact ⟨_, rfl⟩
  · exact ⟨_, rfl⟩

theorem dec_round2_scale2 (m : Int) : Dec.round2 ⟨m, 2⟩ = ⟨m, 2⟩ := by
  unfold Dec.round2
  norm_num

theorem dec_add_scale2 (a b : Int) : Dec.add ⟨a, 2⟩ ⟨b, 2⟩ = ⟨a + b, 2⟩ := by
  unfold Dec.add
  norm_num

theorem dec_sub_scale2 (t c : Int) : Dec.sub ⟨t, 2⟩ ⟨c, 2⟩ = ⟨t - c, 2⟩ := by
  unfold Dec.sub Dec.neg
  rw [dec_add_scale2]
  norm_num
  omega

/-- C4 counterexample: a report reachable from `process_csv` (one sale
whose `Net Sales` text is `"inf"`) has commission `inf`, payout `nan`,
so commission + payout is `nan` and is NOT within ±0.01 of the total. -/
theorem C4_counterexample :
    process_csv [rowInfNet] = .ok ([(strL "Ann", repInf)], [])
    ∧ PyFloat.le
        (PyFloat.pabs (PyFloat.sub
          (PyFloat.add (gallery_commission repInf) (artist_payout repInf))
          (total_net_sales repInf)))
        (.finite ⟨1, 2⟩) = false
    ∧ PyFloat.add (gallery_commission repInf) (artist_payout repInf) = .nan := by
  exact ⟨by decide, by decide, by decide⟩

/-- C4 (amended): for every report all of whose sale amounts are finite,
gallery commission + artist payout equals the total net sales EXACTLY
(both are multiples of 0.01, so the difference the payout rounds is
already exact), hence certainly within the claimed ±0.01; the invariant
fails only for reports with non-finite amounts (see counterexample). -/
theorem C4_rounding_invariant_amended (rep : ArtistReport)
    (h : ∀ s ∈ rep.sales, s.net_sales.isFinite = true) :
    PyFloat.add (gallery_commission rep) (artist_payout rep) = total_net_sales rep
    ∧ PyFloat.le
        (PyFloat.pabs (PyFloat.sub
          (PyFloat.add (gallery_commission rep) (artist_payout rep))
          (total_net_sales rep)))
        (.finite ⟨1, 2⟩) = true := by
  have hfin : ∀ x ∈ rep.sales.map SaleRecord.net_sales, x.isFinite = true := by
    intro x hx
    rcases List.mem_map.mp hx with ⟨s, hs, rfl⟩
    exact h s hs
  obtain ⟨d, hsum⟩ := pySum_finite_aux (rep.sales.map SaleRecord.net_sales) ⟨0, 0⟩ hfin
  obtain ⟨t, ht⟩ := round2_shape d
  have htot : total_net_sales rep = .finite ⟨t, 2⟩ := by
    unfold total_net_sales pySum
    rw [hsum]
    show PyFloat.finite (Dec.round2 d) = _
    rw [ht]
  obtain ⟨c, hc⟩ := round2_shape (Dec.mul ⟨t, 2⟩ rep.commission_rate)
  have hcom : gallery_commission rep = .finite ⟨c, 2⟩ := by
    unfold gallery_commission
    rw [htot]
    show PyFloat.finite (Dec.round2 (Dec.mul ⟨t, 2⟩ rep.commission_rate)) = _
    rw [hc]
  have hpay : artist_payout rep = .finite ⟨t - c, 2⟩ := by
    unfold artist_payout
    rw [htot, hcom]
    show PyFloat.finite (Dec.round2 (Dec.sub ⟨t, 2⟩ ⟨c, 2⟩)) = _
    rw [dec_sub_scale2, dec_round2_scale2]
  have hct : c + (t - c) = t := by omega
  constructor
  · rw [hcom, hpay, htot]
    show PyFloat.finite (Dec.add ⟨c, 2⟩ ⟨t - c, 2⟩) = PyFloat.finite ⟨t, 2⟩
    rw [dec_add_scale2, hct]
  · rw [hcom, hpay, htot]
    show PyFloat.le (PyFloat.pabs
        (PyFloat.sub (PyFloat.finite (Dec.add ⟨c, 2⟩ ⟨t - c, 2⟩)) (.finite ⟨t, 2⟩)))
        (.finite ⟨1, 2⟩) = true
    rw [dec_add_scale2, hct]
    show PyFloat.le (PyFloat.finite (Dec.dabs (Dec.sub ⟨t, 2⟩ ⟨t, 2⟩))) (.finite ⟨1, 2⟩) = true
    rw [dec_sub_scale2]
    have h0 : t - t = 0 := by omega
    rw [h0]
    decide

/-- C4 witness: the amended invariant at the end-to-end report. -/
theorem C4_witness :
    PyFloat.add (gallery_commission repAnn) (artist_payout repAnn) = total_net_sales repAnn
    ∧ PyFloat.le
        (PyFloat.pabs (PyFloat.sub
          (PyFloat.add (gallery_commission repAnn) (artist_payout repAnn))
          (total_net_sales repAnn)))
        (.finite ⟨1, 2⟩) = true :=
  C4_rounding_invariant_amended repAnn (by decide)

/- ------------------------------------------------------------------
The trailing parenthetical pattern of the category parser.
------------------------------------------------------------------ -/

theorem takeWhile_all_append (p : Char → Bool) (ds : Str) (x : Char) (r : Str)
    (h : ∀ c ∈ ds, p c = true) (hx : p x = false) :
    (ds ++ x :: r).takeWhile p = ds ∧ (ds ++ x :: r).dropWhile p = x :: r := by
  induction ds with
  | nil => simp [List.takeWhile_cons, List.dropWhile_cons, hx]
  | cons a as ih =>
    have ha : p a = true := h a (List.mem_cons_self _ _)
    obtain ⟨ih1, ih2⟩ := ih (fun c hc => h c (List.mem_cons_of_mem _ hc))
    simp [List.takeWhile_cons, List.dropWhile_cons, ha, ih1, ih2]

theorem matchSuffix_some (s ds : Str) (h : matchSuffix s = some ds) :
    ∃ ws : Str, s = '(' :: (ds ++ ')' :: ws) ∧ ds ≠ [] ∧
      (∀ c ∈ ds, c.isDigit = true) ∧ (∀ c ∈ ws, pyIsSpace c = true) := by
  cases s with
  | nil => simp [matchSuffix] at h
  | cons c rest =>
    simp only [matchSuffix] at h
    by_cases hc : c = '('
    · rw [if_pos hc] at h
      by_cases hds : rest.takeWhile Char.isDigit = []
      · rw [if_pos hds] at h; cases h
      · rw [if_neg hds] at h
        cases hdrop : rest.dropWhile Char.isDigit with
        | nil => rw [hdrop] at h; cases h
        | cons c2 tail =>
          rw [hdrop] at h
          have h2 : (if c2 = ')' ∧ tail.all pyIsSpace = true
              then some (rest.takeWhile Char.isDigit) else none) = some ds := h
          by_cases hcond : c2 = ')' ∧ tail.all pyIsSpace
          · rw [if_pos hcond] at h2
            injection h2 with hds2
            subst hds2
            refine ⟨tail, ?_, hds, ?_, ?_⟩
            · rw [hc]
              have hsplit := List.takeWhile_append_dropWhile (p := Char.isDigit) (l := rest)
              rw [hdrop, hcond.1] at hsplit
              exact congrArg (List.cons '(') hsplit.symm
            · intro ch hch
              exact List.mem_takeWhile_imp hch
            · intro ch hch
              exact List.all_eq_true.mp hcond.2 ch hch
          · rw [if_neg hcond] at h2; cases h2
    · rw [if_neg hc] at h; cases h

theorem matchSuffix_of_parts (ds ws : Str) (hne : ds ≠ [])
    (hdig : ∀ c ∈ ds, c.isDigit = true) (hws : ∀ c ∈ ws, pyIsSpace c = true) :
    matchSuffix ('(' :: (ds ++ ')' :: ws)) = some ds := by
  obtain ⟨htake, hdrop⟩ := takeWhile_all_append Char.isDigit ds ')' ws hdig (by decide)
  simp only [matchSuffix]
  rw [if_pos trivial, htake, hdrop, if_neg hne]
  show (if (')' = ')' ∧ ws.all pyIsSpace) then some ds else none) = some ds
  rw [if_pos ⟨rfl, List.all_eq_true.mpr hws⟩]

theorem paren_not_in_suffix (ds ws : Str) (hdig : ∀ c ∈ ds, c.isDigit = true)
    (hws : ∀ c ∈ ws, pyIsSpace c = true) : '(' ∉ ds ++ ')' :: ws := by
  intro m
  rcases List.mem_append.mp m with h1 | h2
  · exact absurd (hdig _ h1) (by decide)
  · rcases List.mem_cons.mp h2 with e | h3
    · exact absurd e (by decide)
    · exact absurd (hws _ h3) (by decide)

theorem searchCommission_some (s : Str) : ∀ pre ds : Str,
    searchCommission s = some (pre, ds) → TrailingMatch s pre ds := by
  induction s with
  | nil => intro pre ds h; simp [searchCommission] at h
  | cons c cs ih =>
    intro pre ds h
    simp only [searchCommission] at h
    cases hm : matchSuffix (c :: cs) with
    | some ds0 =>
      rw [hm] at h
      injection h with h2
      cases h2
      obtain ⟨ws, hseq, hne, hdig, hws⟩ := matchSuffix_some _ _ hm
      exact ⟨ws, hseq, hne, hdig, hws⟩
    | none =>
      rw [hm] at h
      cases hsc : searchCommission cs with
      | none => rw [hsc] at h; cases h
      | some p2 =>
        rw [hsc] at h
        cases p2 with
        | mk pa pb =>
          simp only [Option.some.injEq, Prod.mk.injEq] at h
          obtain ⟨rfl, rfl⟩ := h
          obtain ⟨ws, hseq, hne, hdig, hws⟩ := ih _ _ hsc
          exact ⟨ws, by rw [List.cons_append, hseq], hne, hdig, hws⟩

theorem searchCommission_of_match (pre : Str) : ∀ (s ds : Str),
    TrailingMatch s pre ds → searchCommission s = some (pre, ds) := by
  induction pre with
  | nil =>
    intro s ds hm
    obtain ⟨ws, hseq, hne, hdig, hws⟩ := hm
    rw [List.nil_append] at hseq
    subst hseq
    simp only [searchCommission]
    rw [matchSuffix_of_parts ds ws hne hdig hws]
  | cons c pre ih =>
    intro s ds hm
    obtain ⟨ws, hseq, hne, hdig, hws⟩ := hm
    rw [List.cons_append] at hseq
    subst hseq
    have hm2 : TrailingMatch (pre ++ '(' :: (ds ++ ')' :: ws)) pre ds :=
      ⟨ws, rfl, hne, hdig, hws⟩
    have hms : matchSuffix (c :: (pre ++ '(' :: (ds ++ ')' :: ws))) = none := by
      cases hmm : matchSuffix (c :: (pre ++ '(' :: (ds ++ ')' :: ws))) with
      | none => rfl
      | some ds0 =>
        obtain ⟨ws0, hseq0, _, hdig0, hws0⟩ := matchSuffix_some _ _ hmm
        injection hseq0 with hc0 hrest
        have hin : '(' ∈ ds0 ++ ')' :: ws0 := by
          rw [← hrest]
          exact List.mem_append.mpr (Or.inr (List.mem_cons_self _ _))
        exact absurd hin (paren_not_in_suffix ds0 ws0 hdig0 hws0)
    simp only [searchCommission]
    rw [hms, ih _ ds hm2]

theorem no_match_of_searchCommission_none (s : Str) (h : searchCommission s = none) :
    ∀ pre ds : Str, ¬ TrailingMatch s pre ds := by
  intro pre ds hm
  rw [searchCommission_of_match pre s ds hm] at h
  cases h

/-- C5: for every non-sentinel category string, if the string ends with
the trailing parenthetical integer pattern (`(`, digits `ds`, `)`, then
only whitespace) after a prefix `pre`, `parse_category` returns the rate
`ds/100` with the cleaned-up prefix as name (trimmed, leading `#` and
surrounding whitespace stripped); otherwise it returns the default rate
`0.30` with the whole cleaned-up string as name.  The two quoted examples
evaluate as claimed, and `⟨25, 2⟩` is the value 25/100 = 0.25. -/
theorem C5_trailing_parenthetical :
    (∀ s pre ds : Str, ¬ SentinelCat s → TrailingMatch s pre ds →
        parse_category s = (cleanName pre, ⟨(digitsToNat ds : Int), 2⟩))
    ∧ (∀ s : Str, ¬ SentinelCat s → (∀ pre ds : Str, ¬ TrailingMatch s pre ds) →
        parse_category s = (cleanName s, ⟨30, 2⟩))
    ∧ parse_category (strL "Jane Doe (25)") = (strL "Jane Doe", ⟨25, 2⟩)
    ∧ parse_category (strL "#Studio Name") = (strL "Studio Name", ⟨30, 2⟩)
    ∧ Dec.val ⟨25, 2⟩ = 25 / 100 := by
  refine ⟨?_, ?_, by decide, by decide, by norm_num [Dec.val]⟩
  · intro s pre ds hsent hm
    unfold parse_category
    rw [if_neg hsent, searchCommission_of_match pre s ds hm]
  · intro s hsent hnm
    unfold parse_category
    rw [if_neg hsent]
    cases hsc : searchCommission s with
    | none => rfl
    | some p =>
      cases p with
      | mk pre ds =>
        exact absurd (searchCommission_some s pre ds hsc) (hnm pre ds)

/-- C5 witness: both branches at concrete categories. -/
theorem C5_witness :
    parse_category (strL "A (7) ") = (strL "A", ⟨7, 2⟩)
    ∧ parse_category (strL "Bob") = (strL "Bob", ⟨30, 2⟩) :=
  ⟨C5_trailing_parenthetical.1 (strL "A (7) ") (strL "A ") (strL "7") (by decide)
      ⟨strL " ", by decide, by decide, by decide, by decide⟩,
   C5_trailing_parenthetical.2.1 (strL "Bob") (by decide)
      (no_match_of_searchCommission_none (strL "Bob") (by decide))⟩
